import Mathlib

/-!
Shallow embedding of the core of `gauteh/probe-rs` used by this verification
development:

* `GdbServer` — the RSP packet codec (`encode` in `gdb-server/src/writer.rs`)
  and the ACK/NACK wait loop of `writer` in the same file.  Bytes are
  modelled as `Nat`; the asynchronous byte stream is modelled as the list of
  chunks that successive `stream.read` calls deliver.
* `ProbeRs` — the core façade of `probe-rs/src/core/mod.rs`: the register
  file accessors, `SpecificCoreState` construction and tag readback, and the
  hardware-breakpoint algorithm (`set_hw_breakpoint`, `clear_hw_breakpoint`,
  `clear_all_hw_breakpoints`, `find_free_breakpoint_comparator_index`)
  layered over the architecture back-end contract.

The file is organised as definitions first, then the supporting lemmas and
the claim theorems.
-/

set_option autoImplicit false

/-- Rust `Iterator::position` on a list: the index of the first element
satisfying `p`, or `none`.  Used to model the `memchr` scans of the codec
and the comparator-slot scans of the core façade. -/
def position {α : Type} (p : α → Bool) : List α → Option Nat
  | [] => none
  | x :: rest => if p x then some 0 else (position p rest).map (· + 1)

namespace GdbServer

/-- Model of `memchr::memchr(needle, haystack)`: index of the first
occurrence of `needle`. -/
def memchr (needle : Nat) (haystack : List Nat) : Option Nat :=
  position (fun b => b == needle) haystack

/-- Model of `memchr::memchr3(n1, n2, n3, haystack)`: index of the first
occurrence of any of the three needles. -/
def memchr3 (n1 n2 n3 : Nat) (haystack : List Nat) : Option Nat :=
  position (fun b => b == n1 || b == n2 || b == n3) haystack

/-- Translation of `gdb_protocol::packet::Kind` (consumed by the codec). -/
inductive PacketKind : Type
  | Packet
  | Notification
deriving DecidableEq, Repr

/-- Translation of `gdb_protocol::packet::CheckedPacket`: kind, raw
unescaped payload, and the precomputed checksum trailer bytes. -/
structure CheckedPacket : Type where
  kind : PacketKind
  data : List Nat
  checksum : List Nat
deriving DecidableEq, Repr

/-- Header byte written by `encode`: `%` (0x25) for a notification, `$`
(0x24) for a packet — the `match packet.kind` at the top of `encode` in
`gdb-server/src/writer.rs`. -/
def markerByte : PacketKind → Nat
  | PacketKind.Notification => 0x25
  | PacketKind.Packet => 0x24

/-- Payload loop of `encode` in `gdb-server/src/writer.rs`: while the
remaining payload is nonempty, locate the first index holding one of `#`,
`$`, `}` (via `memchr3`) or `*` (via `memchr`), take the minimum of the two
(each defaulting to the remaining length), emit the bytes before that index
unchanged, and if a byte is left at the index emit `}` followed by the byte
XOR 0x20 and continue after it. -/
def encodePayload (remaining : List Nat) : List Nat :=
  let e1 := (memchr3 0x23 0x24 0x7d remaining).getD remaining.length
  let e2 := (memchr 0x2a remaining).getD remaining.length
  let escape := min e1 e2
  match h : remaining.drop escape with
  | [] => remaining.take escape
  | b :: rest => remaining.take escape ++ 0x7d :: (b ^^^ 0x20) :: encodePayload rest
termination_by remaining.length
decreasing_by
  have hlen := congrArg List.length h
  simp [List.length_drop] at hlen
  omega

/-- Translation of `encode` in `gdb-server/src/writer.rs`: header byte,
escaped payload, a literal `#` (0x23) terminator, then the precomputed
checksum bytes verbatim. -/
def encode (packet : CheckedPacket) : List Nat :=
  markerByte packet.kind :: (encodePayload packet.data ++ 0x23 :: packet.checksum)

/-- Escape-reversal transform, written from the specification text: replace
each two-byte sequence `}` `x` by `x XOR 0x20`, leaving every other byte
unchanged. -/
def unescape : List Nat → List Nat
  | [] => []
  | [b] => [b]
  | b :: x :: rest =>
    if b == 0x7d then (x ^^^ 0x20) :: unescape rest
    else b :: unescape (x :: rest)

/-- A byte the codec must escape: one of `#`, `$`, `}`, `*`. -/
def escapeNeeded (b : Nat) : Bool :=
  b == 0x23 || b == 0x24 || b == 0x7d || b == 0x2a

/-- Byte-at-a-time characterisation of the payload loop, used by the
proofs; `encodePayload_eq_simple` shows the chunked `memchr` loop computes
this function. -/
def encodePayloadSimple : List Nat → List Nat
  | [] => []
  | b :: rest =>
    if escapeNeeded b then 0x7d :: (b ^^^ 0x20) :: encodePayloadSimple rest
    else b :: encodePayloadSimple rest

/-- The cut index computed inside one iteration of the payload loop. -/
def escapeCut (l : List Nat) : Nat :=
  min ((memchr3 0x23 0x24 0x7d l).getD l.length) ((memchr 0x2a l).getD l.length)

/-- Observable actions of the `writer` function, in order: each transmission
of an encoded frame, and each `+` or `-` consumed from the buffer. -/
inductive WriterEvent : Type
  | frameSent (bytes : List Nat)
  | ackConsumed
  | nackConsumed
deriving DecidableEq, Repr

/-- Outcome of one pass of the `for (i, byte) in buffer.iter().enumerate()`
scan in `writer`: the first `+` (0x2b) or `-` (0x2d) in the buffer is
removed (`buffer.remove(i)`) and every other byte is kept; if the buffer
holds neither, the scan falls through. -/
inductive AckScan : Type
  | ackFound (buffer : List Nat)
  | nackFound (buffer : List Nat)
  | noMarker
deriving DecidableEq, Repr

/-- The buffer scan of the `'ack:` loop in `writer`
(`gdb-server/src/writer.rs`): walk the buffer in order; on `+` remove that
byte and report an ack, on `-` remove that byte and report a nack, leave
any other byte in place. -/
def scanAckBuffer : List Nat → AckScan
  | [] => AckScan.noMarker
  | b :: rest =>
    if b == 0x2b then AckScan.ackFound rest
    else if b == 0x2d then AckScan.nackFound rest
    else match scanAckBuffer rest with
      | AckScan.ackFound buf => AckScan.ackFound (b :: buf)
      | AckScan.nackFound buf => AckScan.nackFound (b :: buf)
      | AckScan.noMarker => AckScan.noMarker

/-- The `'ack: loop` of `writer`: each iteration performs one
`stream.read` (consuming the next chunk of `chunks`), appends the bytes
read to the buffer, and scans the buffer.  On `+` the loop ends and the
buffer is handed to the inbound reader together with the rest of the
stream; on `-` the byte is removed and the loop continues with the next
read (`continue 'ack` in the source re-enters the loop at `stream.read`
without re-encoding anything); with no marker the loop also continues.
`none` models the loop still blocked in `stream.read` when the modelled
chunks are exhausted. -/
def writerAckLoop : List (List Nat) → List Nat → Option (List WriterEvent × List Nat × List (List Nat))
  | [], _ => none
  | chunk :: restChunks, buffer =>
    match scanAckBuffer (buffer ++ chunk) with
    | AckScan.ackFound buffer2 => some ([WriterEvent.ackConsumed], buffer2, restChunks)
    | AckScan.nackFound buffer2 =>
      match writerAckLoop restChunks buffer2 with
      | some (events, finalBuffer, leftover) =>
        some (WriterEvent.nackConsumed :: events, finalBuffer, leftover)
      | none => none
    | AckScan.noMarker => writerAckLoop restChunks (buffer ++ chunk)

/-- Translation of `writer` in `gdb-server/src/writer.rs`: encode and send
the packet once, then run the `'ack:` loop; afterwards the connection
(buffer plus unread stream) goes to `reader`.  The result lists the events
in order, the buffer handed to the reader, and the chunks the reader will
still receive. -/
def writer (packet : CheckedPacket) (chunks : List (List Nat)) (buffer : List Nat) :
    Option (List WriterEvent × List Nat × List (List Nat)) :=
  match writerAckLoop chunks buffer with
  | some (events, finalBuffer, leftover) =>
    some (WriterEvent.frameSent (encode packet) :: events, finalBuffer, leftover)
  | none => none

/-- Number of frame transmissions recorded in an event trace. -/
def sentFrameCount (events : List WriterEvent) : Nat :=
  events.countP fun e =>
    match e with
    | WriterEvent.frameSent _ => true
    | _ => false

/-- Number of `+` bytes consumed as ack markers in an event trace. -/
def ackConsumedCount (events : List WriterEvent) : Nat :=
  events.countP fun e =>
    match e with
    | WriterEvent.ackConsumed => true
    | _ => false

/-- Number of `-` bytes consumed as nack markers in an event trace. -/
def nackConsumedCount (events : List WriterEvent) : Nat :=
  events.countP fun e =>
    match e with
    | WriterEvent.nackConsumed => true
    | _ => false

end GdbServer

namespace ProbeRs

/-- Modelled from the spec: `crate::architecture::arm::core::State`, the
per-architecture mutable debug state carried by the ARM variants of
`SpecificCoreState`.  Its contents live outside `probe-rs/src/core/mod.rs`;
only its fresh construction (`State::new()`) is relevant here. -/
structure State : Type where
deriving DecidableEq, Repr

/-- Fresh per-architecture state, standing for `State::new()`. -/
def State.new : State := {}

/-- Translation of `probe_rs_target::CoreType`: the declared core types
matched by `SpecificCoreState::from_core_type`. -/
inductive CoreType : Type
  | Armv6m
  | Armv7m
  | Armv7em
  | Armv8m
  | Riscv
deriving DecidableEq, Repr

/-- Translation of the `SpecificCoreState` tagged union in
`probe-rs/src/core/mod.rs`. -/
inductive SpecificCoreState : Type
  | Armv6m (s : State)
  | Armv7m (s : State)
  | Armv7em (s : State)
  | Armv8m (s : State)
  | Riscv
deriving DecidableEq, Repr

/-- Translation of `SpecificCoreState::from_core_type` (lines 249–257 of
`probe-rs/src/core/mod.rs`), matching the source arm for arm — including
the `CoreType::Armv7em => SpecificCoreState::Armv7m(State::new())` arm. -/
def from_core_type : CoreType → SpecificCoreState
  | CoreType.Armv6m => SpecificCoreState.Armv6m State.new
  | CoreType.Armv7m => SpecificCoreState.Armv7m State.new
  | CoreType.Armv7em => SpecificCoreState.Armv7m State.new
  | CoreType.Armv8m => SpecificCoreState.Armv8m State.new
  | CoreType.Riscv => SpecificCoreState.Riscv

/-- Translation of `SpecificCoreState::core_type` (lines 259–267). -/
def core_type : SpecificCoreState → CoreType
  | SpecificCoreState.Armv6m _ => CoreType.Armv6m
  | SpecificCoreState.Armv7m _ => CoreType.Armv7m
  | SpecificCoreState.Armv7em _ => CoreType.Armv7em
  | SpecificCoreState.Armv8m _ => CoreType.Armv8m
  | SpecificCoreState.Riscv => CoreType.Riscv

/-- Translation of `RegisterKind`. -/
inductive RegisterKind : Type
  | General
  | PC
deriving DecidableEq, Repr

/-- Translation of `RegisterDescription`: name, kind, and the 16-bit
register address (`CoreRegisterAddress`) as a `Nat`. -/
structure RegisterDescription : Type where
  name : String
  kind : RegisterKind
  address : Nat
deriving DecidableEq, Repr

/-- Translation of `RegisterFile`: the static per-architecture register
tables. -/
structure RegisterFile : Type where
  platform_registers : List RegisterDescription
  program_counter : RegisterDescription
  stack_pointer : RegisterDescription
  return_address : RegisterDescription
  argument_registers : List RegisterDescription
  result_registers : List RegisterDescription
deriving DecidableEq, Repr

/-- Checked accessor `RegisterFile::get_platform_register` (`.get(index)`
in the source, returning `Option`). -/
def RegisterFile.get_platform_register (rf : RegisterFile) (index : Nat) :
    Option RegisterDescription :=
  rf.platform_registers.get? index

/-- Unchecked accessor `RegisterFile::platform_register`
(`&self.platform_registers[index]` in the source): indexes directly, so it
carries the bound as a precondition in the embedding. -/
def RegisterFile.platform_register (rf : RegisterFile) (index : Nat)
    (h : index < rf.platform_registers.length) : RegisterDescription :=
  rf.platform_registers.get ⟨index, h⟩

/-- Checked accessor `RegisterFile::get_argument_register`. -/
def RegisterFile.get_argument_register (rf : RegisterFile) (index : Nat) :
    Option RegisterDescription :=
  rf.argument_registers.get? index

/-- Unchecked accessor `RegisterFile::argument_register`. -/
def RegisterFile.argument_register (rf : RegisterFile) (index : Nat)
    (h : index < rf.argument_registers.length) : RegisterDescription :=
  rf.argument_registers.get ⟨index, h⟩

/-- Checked accessor `RegisterFile::get_result_register`. -/
def RegisterFile.get_result_register (rf : RegisterFile) (index : Nat) :
    Option RegisterDescription :=
  rf.result_registers.get? index

/-- Unchecked accessor `RegisterFile::result_register`. -/
def RegisterFile.result_register (rf : RegisterFile) (index : Nat)
    (h : index < rf.result_registers.length) : RegisterDescription :=
  rf.result_registers.get ⟨index, h⟩

/-- Sample register description used by concrete witnesses. -/
def sampleRegisterDescription : RegisterDescription :=
  { name := "R0", kind := RegisterKind.General, address := 0 }

/-- Sample register file used by concrete witnesses: one platform
register, one result register, and no argument registers. -/
def sampleRegisterFile : RegisterFile :=
  { platform_registers := [sampleRegisterDescription]
    program_counter := sampleRegisterDescription
    stack_pointer := sampleRegisterDescription
    return_address := sampleRegisterDescription
    argument_registers := []
    result_registers := [sampleRegisterDescription] }

/-- State of the architecture back-end behind the `Core` façade, as far as
the breakpoint algorithm observes it: the comparator slots (a `none` entry
is a free slot) and the breakpoint-unit enable flag. -/
structure HwState : Type where
  slots : List (Option Nat)
  hwBreakpointsEnabled : Bool
deriving DecidableEq, Repr

/-- The explicit breakpoint errors raised by the façade in
`probe-rs/src/core/mod.rs` (both built with `anyhow!`). -/
inductive CoreError : Type
  | noAvailableHwBreakpoints
  | noBreakpointAtAddress (address : Nat)
deriving DecidableEq, Repr

/-- Modelled from the spec: `CoreInterface::get_hw_breakpoints` reports all
comparator slots, a `none` entry meaning the slot is free, regardless of
the enable flag.  The architecture back-ends implementing it are outside
`probe-rs/src/core/mod.rs`. -/
def get_hw_breakpoints (s : HwState) : List (Option Nat) :=
  s.slots

/-- Modelled from the spec: `CoreInterface::enable_breakpoints` arms or
disarms the breakpoint unit and touches no comparator slot. -/
def enable_breakpoints (state : Bool) (s : HwState) : HwState :=
  { s with hwBreakpointsEnabled := state }

/-- Modelled from the spec: the back-end `CoreInterface::set_hw_breakpoint`
writes `addr` into the comparator slot `bp_unit_index`. -/
def innerSetHwBreakpoint (bp_unit_index : Nat) (addr : Nat) (s : HwState) : HwState :=
  { s with slots := s.slots.set bp_unit_index (some addr) }

/-- Modelled from the spec: the back-end
`CoreInterface::clear_hw_breakpoint` frees the comparator slot
`unit_index`. -/
def innerClearHwBreakpoint (unit_index : Nat) (s : HwState) : HwState :=
  { s with slots := s.slots.set unit_index none }

/-- Loop body of `Core::find_free_breakpoint_comparator_index` (lines
419–431): walk the slots with a counter and return the counter at the
first free slot, or the "No available hardware breakpoints" error. -/
def findFreeLoop : List (Option Nat) → Nat → Except CoreError Nat
  | [], _ => Except.error CoreError.noAvailableHwBreakpoints
  | none :: _, next => Except.ok next
  | some _ :: rest, next => findFreeLoop rest (next + 1)

/-- Translation of `Core::find_free_breakpoint_comparator_index`. -/
def find_free_breakpoint_comparator_index (s : HwState) : Except CoreError Nat :=
  findFreeLoop (get_hw_breakpoints s) 0

/-- Translation of `Core::set_hw_breakpoint(address)` (lines 438–464):
lazily enable the breakpoint unit, reuse the comparator index of an
existing slot holding `address` if any, otherwise find the first free
index, then write the breakpoint at the resolved index.  The pair returns
the state as mutated so far together with the `Result`. -/
def set_hw_breakpoint (address : Nat) (s : HwState) : HwState × Except CoreError Unit :=
  let s1 := if !s.hwBreakpointsEnabled then enable_breakpoints true s else s
  match position (fun bp => bp == some address) (get_hw_breakpoints s1) with
  | some breakpoint_comparator_index =>
    (innerSetHwBreakpoint breakpoint_comparator_index address s1, Except.ok ())
  | none =>
    match find_free_breakpoint_comparator_index s1 with
    | Except.ok breakpoint_comparator_index =>
      (innerSetHwBreakpoint breakpoint_comparator_index address s1, Except.ok ())
    | Except.error e => (s1, Except.error e)

/-- Translation of `Core::clear_hw_breakpoint(address)` (lines 466–489):
find the first slot holding exactly `address` (`bp.is_some() &&
bp.unwrap() == address`, the unwrap being guarded by the `is_some`), clear
it, or fail with the "No breakpoint found at address" error. -/
def clear_hw_breakpoint (address : Nat) (s : HwState) : HwState × Except CoreError Unit :=
  match position (fun bp => bp.isSome && bp.getD 0 == address) (get_hw_breakpoints s) with
  | some bp_position => (innerClearHwBreakpoint bp_position s, Except.ok ())
  | none => (s, Except.error (CoreError.noBreakpointAtAddress address))

/-- Loop of `Core::clear_all_hw_breakpoints` over the flattened snapshot of
addresses, with `?`-propagation of the first error. -/
def clearAllLoop : List Nat → HwState → HwState × Except CoreError Unit
  | [], s => (s, Except.ok ())
  | address :: rest, s =>
    match clear_hw_breakpoint address s with
    | (s2, Except.ok _) => clearAllLoop rest s2
    | (s2, Except.error e) => (s2, Except.error e)

/-- Translation of `Core::clear_all_hw_breakpoints` (lines 496–502):
iterate over `get_hw_breakpoints()?.into_iter().flatten()` — the addresses
of all currently occupied slots — and clear each by address. -/
def clear_all_hw_breakpoints (s : HwState) : HwState × Except CoreError Unit :=
  clearAllLoop ((get_hw_breakpoints s).filterMap id) s

/-- Number of occupied comparator slots. -/
def occupiedSlotCount (slots : List (Option Nat)) : Nat :=
  slots.countP fun bp => bp.isSome

end ProbeRs

/-! Supporting lemmas about `position`. -/

theorem position_eq_none_iff {α : Type} (p : α → Bool) :
    ∀ l : List α, position p l = none ↔ ∀ x ∈ l, p x = false := by
  intro l
  induction l with
  | nil => simp [position]
  | cons x rest ih =>
    by_cases hx : p x <;> simp [position, hx, ih]

theorem position_some_drop {α : Type} (p : α → Bool) :
    ∀ (l : List α) (i : Nat), position p l = some i →
      ∃ x rest, l.drop i = x :: rest ∧ p x = true := by
  intro l
  induction l with
  | nil => intro i h; simp [position] at h
  | cons y rest ih =>
    intro i h
    by_cases hy : p y
    · simp [position, hy] at h
      subst h
      exact ⟨y, rest, rfl, hy⟩
    · simp [position, hy] at h
      obtain ⟨j, hj, rfl⟩ := h
      obtain ⟨x, r, hr, hx⟩ := ih j hj
      exact ⟨x, r, by simpa using hr, hx⟩

theorem position_some_decomp {α : Type} (p : α → Bool) :
    ∀ (l : List α) (i : Nat), position p l = some i →
      ∃ pre x suf, l = pre ++ x :: suf ∧ pre.length = i ∧ p x = true ∧
        ∀ y ∈ pre, p y = false := by
  intro l
  induction l with
  | nil => intro i h; simp [position] at h
  | cons y rest ih =>
    intro i h
    by_cases hy : p y
    · simp [position, hy] at h
      subst h
      exact ⟨[], y, rest, rfl, rfl, hy, by simp⟩
    · simp [position, hy] at h
      obtain ⟨j, hj, rfl⟩ := h
      obtain ⟨pre, x, suf, hdecomp, hlen, hx, hpre⟩ := ih j hj
      refine ⟨y :: pre, x, suf, by simp [hdecomp], by simp [hlen], hx, ?_⟩
      intro z hz
      rcases List.mem_cons.mp hz with rfl | hz2
      · simpa using hy
      · exact hpre z hz2

theorem mem_take_position_false {α : Type} (p : α → Bool) :
    ∀ (l : List α) (x : α), x ∈ l.take ((position p l).getD l.length) → p x = false := by
  intro l
  induction l with
  | nil => intro x hx; simp at hx
  | cons y rest ih =>
    intro x hx
    by_cases hy : p y
    · simp [position, hy] at hx
    · simp only [position, hy, if_false] at hx
      cases hpos : position p rest with
      | none =>
        rw [hpos] at hx
        simp [List.take_length] at hx
        rcases hx with rfl | hx2
        · simpa using hy
        · exact ih x (by simp [hpos, List.take_length, hx2])
      | some j =>
        rw [hpos] at hx
        simp at hx
        rcases hx with rfl | hx2
        · simpa using hy
        · exact ih x (by simp [hpos, hx2])

theorem mem_take_mono {α : Type} {l : List α} {a b : Nat} (hab : a ≤ b) {x : α}
    (hx : x ∈ l.take a) : x ∈ l.take b := by
  have heq : l.take a = (l.take b).take a := by
    rw [List.take_take, Nat.min_eq_left hab]
  rw [heq] at hx
  exact List.mem_of_mem_take hx

theorem set_at_decomp_length {α : Type} :
    ∀ (pre : List α) (x u : α) (suf : List α),
      (pre ++ x :: suf).set pre.length u = pre ++ u :: suf := by
  intro pre
  induction pre with
  | nil => intro x u suf; rfl
  | cons y pre ih => intro x u suf; simp [List.set, ih x u suf]

namespace GdbServer

/-! Supporting lemmas for the packet codec. -/

theorem mem_take_escapeCut_not_escapeNeeded {l : List Nat} {x : Nat}
    (hx : x ∈ l.take (escapeCut l)) : escapeNeeded x = false := by
  have h1 : x ∈ l.take ((memchr3 0x23 0x24 0x7d l).getD l.length) :=
    mem_take_mono (Nat.min_le_left _ _) hx
  have h2 : x ∈ l.take ((memchr 0x2a l).getD l.length) :=
    mem_take_mono (Nat.min_le_right _ _) hx
  have hp1 := mem_take_position_false _ l x h1
  have hp2 := mem_take_position_false _ l x h2
  simp only [escapeNeeded]
  simp only at hp1 hp2
  simp [hp1, hp2]

theorem head_drop_escapeCut {l : List Nat} {b : Nat} {rest : List Nat}
    (h : l.drop (escapeCut l) = b :: rest) : escapeNeeded b = true := by
  have hlt : escapeCut l < l.length := by
    by_contra hge
    push_neg at hge
    have hnil : l.drop (escapeCut l) = [] := List.drop_eq_nil_of_le hge
    rw [hnil] at h
    exact List.noConfusion h
  rcases Nat.le_total ((memchr3 0x23 0x24 0x7d l).getD l.length)
      ((memchr 0x2a l).getD l.length) with hle | hle
  · have hcut : escapeCut l = (memchr3 0x23 0x24 0x7d l).getD l.length :=
      Nat.min_eq_left hle
    have hsome : memchr3 0x23 0x24 0x7d l = some (escapeCut l) := by
      cases hm : memchr3 0x23 0x24 0x7d l with
      | none => rw [hm] at hcut; simp at hcut; omega
      | some j => rw [hm] at hcut; simp at hcut; rw [hcut]
    obtain ⟨x, r, hr, hx⟩ := position_some_drop _ l _ hsome
    rw [h] at hr
    injection hr with h1 h2
    have hx3 : (x = 0x23 ∨ x = 0x24) ∨ x = 0x7d := by simpa using hx
    rw [h1]
    rcases hx3 with (rfl | rfl) | rfl <;> decide
  · have hcut : escapeCut l = (memchr 0x2a l).getD l.length :=
      Nat.min_eq_right hle
    have hsome : memchr 0x2a l = some (escapeCut l) := by
      cases hm : memchr 0x2a l with
      | none => rw [hm] at hcut; simp at hcut; omega
      | some j => rw [hm] at hcut; simp at hcut; rw [hcut]
    obtain ⟨x, r, hr, hx⟩ := position_some_drop _ l _ hsome
    rw [h] at hr
    injection hr with h1 h2
    have hx2 : x = 0x2a := by simpa using hx
    rw [h1, hx2]
    decide

theorem encodePayload_nil_case {l : List Nat} (h : l.drop (escapeCut l) = []) :
    encodePayload l = l.take (escapeCut l) := by
  rw [encodePayload]
  split
  · rfl
  · rename_i b rest hcons
    rw [show (min ((memchr3 0x23 0x24 0x7d l).getD l.length)
        ((memchr 0x2a l).getD l.length)) = escapeCut l from rfl] at hcons
    rw [h] at hcons
    exact absurd hcons (by simp)

theorem encodePayload_cons_case {l : List Nat} {b : Nat} {rest : List Nat}
    (h : l.drop (escapeCut l) = b :: rest) :
    encodePayload l = l.take (escapeCut l) ++ 0x7d :: (b ^^^ 0x20) :: encodePayload rest := by
  rw [encodePayload]
  split
  · rename_i hnil
    rw [show (min ((memchr3 0x23 0x24 0x7d l).getD l.length)
        ((memchr 0x2a l).getD l.length)) = escapeCut l from rfl] at hnil
    rw [h] at hnil
    exact absurd hnil (by simp)
  · rename_i b2 rest2 hcons
    rw [show (min ((memchr3 0x23 0x24 0x7d l).getD l.length)
        ((memchr 0x2a l).getD l.length)) = escapeCut l from rfl] at hcons
    rw [h] at hcons
    injection hcons with h1 h2
    subst h1
    subst h2
    rfl

theorem encodePayloadSimple_congr_clean :
    ∀ (pre suf : List Nat), (∀ x ∈ pre, escapeNeeded x = false) →
      encodePayloadSimple (pre ++ suf) = pre ++ encodePayloadSimple suf := by
  intro pre
  induction pre with
  | nil => intro suf _; simp
  | cons x pre ih =>
    intro suf hall
    have hx : escapeNeeded x = false := hall x (List.mem_cons_self x pre)
    simp [encodePayloadSimple, hx, ih suf fun y hy => hall y (List.mem_cons_of_mem x hy)]

theorem encodePayloadSimple_all_clean :
    ∀ (l : List Nat), (∀ x ∈ l, escapeNeeded x = false) → encodePayloadSimple l = l := by
  intro l h
  have hcp := encodePayloadSimple_congr_clean l [] h
  simpa [encodePayloadSimple] using hcp

theorem encodePayload_eq_simple : ∀ (l : List Nat), encodePayload l = encodePayloadSimple l := by
  intro l
  induction l using encodePayload.induct with
  | case1 x e1 e2 escape hnil =>
    have hcut : escapeCut x = escape := rfl
    rw [encodePayload_nil_case (hcut ▸ hnil)]
    have htake : x.take (escapeCut x) = x := by
      have had := List.take_append_drop (escapeCut x) x
      rw [hcut, hnil] at had
      simpa [hcut] using had
    rw [htake]
    refine (encodePayloadSimple_all_clean x fun y hy => ?_).symm
    have hmem : y ∈ x.take (escapeCut x) := by rw [htake]; exact hy
    exact mem_take_escapeCut_not_escapeNeeded hmem
  | case2 x e1 e2 escape b rest hcons ih =>
    have hcut : escapeCut x = escape := rfl
    rw [encodePayload_cons_case (hcut ▸ hcons)]
    have hb : escapeNeeded b = true := head_drop_escapeCut (hcut ▸ hcons)
    have hx : x = x.take (escapeCut x) ++ b :: rest := by
      have had := List.take_append_drop (escapeCut x) x
      rw [hcut, hcons] at had
      exact (hcut ▸ had).symm
    conv_rhs => rw [hx]
    rw [encodePayloadSimple_congr_clean _ _ fun y hy => mem_take_escapeCut_not_escapeNeeded hy]
    simp only [encodePayloadSimple, hb, if_true, ih]

end GdbServer

namespace GdbServer

/-! Lemmas about `unescape`, and the codec claims. -/

theorem unescape_cons_of_ne {b : Nat} (hb : (b == 0x7d) = false) (t : List Nat) :
    unescape (b :: t) = b :: unescape t := by
  cases t <;> simp [unescape, hb]

theorem unescape_escape_pair (x : Nat) (t : List Nat) :
    unescape (0x7d :: x :: t) = (x ^^^ 0x20) :: unescape t := by
  simp [unescape]

theorem unescape_encodePayloadSimple :
    ∀ l : List Nat, unescape (encodePayloadSimple l) = l := by
  intro l
  induction l with
  | nil => rfl
  | cons b rest ih =>
    by_cases hb : escapeNeeded b
    · simp only [encodePayloadSimple, hb, if_true]
      rw [unescape_escape_pair, ih, Nat.xor_cancel_right]
    · have hbf : escapeNeeded b = false := by simpa using hb
      have hb7 : (b == 0x7d) = false := by
        simp [escapeNeeded] at hbf
        simp [hbf.1.2]
      simp only [encodePayloadSimple, hbf, Bool.false_eq_true, if_false]
      rw [unescape_cons_of_ne hb7, ih]

theorem mem_encodePayloadSimple_not_raw :
    ∀ (l : List Nat) (b : Nat), b ∈ encodePayloadSimple l →
      ¬(b = 0x23 ∨ b = 0x24 ∨ b = 0x2a) := by
  intro l
  induction l with
  | nil => intro b hb; simp [encodePayloadSimple] at hb
  | cons c rest ih =>
    intro b hb
    by_cases hc : escapeNeeded c
    · simp only [encodePayloadSimple, hc, if_true] at hb
      rcases List.mem_cons.mp hb with rfl | hb2
      · decide
      rcases List.mem_cons.mp hb2 with rfl | hb3
      · have hc4 : ((c = 0x23 ∨ c = 0x24) ∨ c = 0x7d) ∨ c = 0x2a := by
          simpa [escapeNeeded] using hc
        rcases hc4 with ((rfl | rfl) | rfl) | rfl <;> decide
      · exact ih b hb3
    · have hcf : escapeNeeded c = false := by simpa using hc
      simp only [encodePayloadSimple, hcf, Bool.false_eq_true, if_false] at hb
      rcases List.mem_cons.mp hb with rfl | hb2
      · simp [escapeNeeded] at hcf
        intro hraw
        rcases hraw with rfl | rfl | rfl <;> simp at hcf
      · exact ih b hb2

/-- C3: encoding a payload and reversing the escape transform on the
emitted payload region recovers the payload exactly, for every payload
(any mix of `#`, `$`, `}`, `*` included); moreover every occurrence of the
escapable bytes `#`, `$`, `*` is escaped — none of them ever appears raw
in the emitted payload region. -/
theorem encode_escape_roundtrip (payload : List Nat) :
    unescape (encodePayload payload) = payload ∧
    ∀ b ∈ encodePayload payload, ¬(b = 0x23 ∨ b = 0x24 ∨ b = 0x2a) := by
  constructor
  · rw [encodePayload_eq_simple]
    exact unescape_encodePayloadSimple payload
  · intro b hb
    rw [encodePayload_eq_simple] at hb
    exact mem_encodePayloadSimple_not_raw payload b hb

/-- Witness for C3 at the payload `# $ } * A`. -/
theorem encode_escape_roundtrip_witness :
    unescape (encodePayload [0x23, 0x24, 0x7d, 0x2a, 0x41]) = [0x23, 0x24, 0x7d, 0x2a, 0x41] ∧
    ¬((0x7d : Nat) = 0x23 ∨ (0x7d : Nat) = 0x24 ∨ (0x7d : Nat) = 0x2a) :=
  ⟨(encode_escape_roundtrip [0x23, 0x24, 0x7d, 0x2a, 0x41]).1,
   (encode_escape_roundtrip [0x23, 0x24, 0x7d, 0x2a, 0x41]).2 0x7d
     (by rw [encodePayload_eq_simple]; decide)⟩

/-- C8: for a payload free of `#`, `$`, `}`, `*`, the encoded frame is the
marker byte, then the payload unchanged with no `}` insertions, then a
literal `#`, then the checksum bytes verbatim; the marker is `%` for a
notification and `$` for a packet. -/
theorem encode_no_escapable_bytes (packet : CheckedPacket)
    (h : ∀ b ∈ packet.data, ¬(b = 0x23 ∨ b = 0x24 ∨ b = 0x7d ∨ b = 0x2a)) :
    encode packet = markerByte packet.kind :: (packet.data ++ 0x23 :: packet.checksum) ∧
    markerByte PacketKind.Notification = 0x25 ∧
    markerByte PacketKind.Packet = 0x24 := by
  refine ⟨?_, rfl, rfl⟩
  have hdata : encodePayload packet.data = packet.data := by
    rw [encodePayload_eq_simple]
    refine encodePayloadSimple_all_clean packet.data fun x hx => ?_
    have hx2 := h x hx
    push_neg at hx2
    simp [escapeNeeded, hx2.1, hx2.2.1, hx2.2.2.1, hx2.2.2.2]
  rw [encode, hdata]

/-- Witness for C8 at the packet `$OK#9a`. -/
theorem encode_no_escapable_bytes_witness :
    encode { kind := PacketKind.Packet, data := [0x4f, 0x4b], checksum := [0x39, 0x61] } =
      markerByte PacketKind.Packet :: ([0x4f, 0x4b] ++ 0x23 :: [0x39, 0x61]) ∧
    markerByte PacketKind.Notification = 0x25 ∧
    markerByte PacketKind.Packet = 0x24 :=
  encode_no_escapable_bytes
    { kind := PacketKind.Packet, data := [0x4f, 0x4b], checksum := [0x39, 0x61] }
    (by decide)

end GdbServer

namespace GdbServer

/-! Lemmas about the ack scan and the ack loop, and the transport claims. -/

theorem scanAckBuffer_ack_decomp :
    ∀ (l buf : List Nat), scanAckBuffer l = AckScan.ackFound buf →
      ∃ pre suf, l = pre ++ 0x2b :: suf ∧ buf = pre ++ suf ∧
        ∀ b ∈ pre, b ≠ 0x2b ∧ b ≠ 0x2d := by
  intro l
  induction l with
  | nil => intro buf h; simp [scanAckBuffer] at h
  | cons c rest ih =>
    intro buf h
    by_cases hc1 : c = 0x2b
    · subst hc1
      simp [scanAckBuffer] at h
      subst h
      exact ⟨[], rest, rfl, rfl, by simp⟩
    · by_cases hc2 : c = 0x2d
      · subst hc2
        simp [scanAckBuffer] at h
      · have hc1b : (c == 0x2b) = false := by simp [hc1]
        have hc2b : (c == 0x2d) = false := by simp [hc2]
        simp only [scanAckBuffer, hc1b, hc2b, Bool.false_eq_true, if_false] at h
        cases hscan : scanAckBuffer rest with
        | ackFound buf2 =>
          rw [hscan] at h
          simp at h
          subst h
          obtain ⟨pre, suf, hdec, hbuf, hpre⟩ := ih buf2 hscan
          refine ⟨c :: pre, suf, by simp [hdec], by simp [hbuf], ?_⟩
          intro b hb
          rcases List.mem_cons.mp hb with rfl | hb2
          · exact ⟨hc1, hc2⟩
          · exact hpre b hb2
        | nackFound buf2 => rw [hscan] at h; simp at h
        | noMarker => rw [hscan] at h; simp at h

theorem scanAckBuffer_nack_decomp :
    ∀ (l buf : List Nat), scanAckBuffer l = AckScan.nackFound buf →
      ∃ pre suf, l = pre ++ 0x2d :: suf ∧ buf = pre ++ suf ∧
        ∀ b ∈ pre, b ≠ 0x2b ∧ b ≠ 0x2d := by
  intro l
  induction l with
  | nil => intro buf h; simp [scanAckBuffer] at h
  | cons c rest ih =>
    intro buf h
    by_cases hc1 : c = 0x2b
    · subst hc1
      simp [scanAckBuffer] at h
    · by_cases hc2 : c = 0x2d
      · subst hc2
        simp [scanAckBuffer] at h
        subst h
        exact ⟨[], rest, rfl, rfl, by simp⟩
      · have hc1b : (c == 0x2b) = false := by simp [hc1]
        have hc2b : (c == 0x2d) = false := by simp [hc2]
        simp only [scanAckBuffer, hc1b, hc2b, Bool.false_eq_true, if_false] at h
        cases hscan : scanAckBuffer rest with
        | ackFound buf2 => rw [hscan] at h; simp at h
        | nackFound buf2 =>
          rw [hscan] at h
          simp at h
          subst h
          obtain ⟨pre, suf, hdec, hbuf, hpre⟩ := ih buf2 hscan
          refine ⟨c :: pre, suf, by simp [hdec], by simp [hbuf], ?_⟩
          intro b hb
          rcases List.mem_cons.mp hb with rfl | hb2
          · exact ⟨hc1, hc2⟩
          · exact hpre b hb2
        | noMarker => rw [hscan] at h; simp at h

theorem writerAckLoop_buffer_discipline :
    ∀ (chunks : List (List Nat)) (buffer : List Nat) (events : List WriterEvent)
      (finalBuffer : List Nat) (leftover : List (List Nat)),
      writerAckLoop chunks buffer = some (events, finalBuffer, leftover) →
      ∃ consumed, chunks = consumed ++ leftover ∧
        List.Sublist finalBuffer (buffer ++ consumed.flatten) ∧
        (∀ b, b ≠ 0x2b → b ≠ 0x2d →
          finalBuffer.count b = (buffer ++ consumed.flatten).count b) ∧
        (buffer ++ consumed.flatten).count 0x2b =
          finalBuffer.count 0x2b + ackConsumedCount events ∧
        (buffer ++ consumed.flatten).count 0x2d =
          finalBuffer.count 0x2d + nackConsumedCount events := by
  intro chunks
  induction chunks with
  | nil => intro buffer events fb lo h; simp [writerAckLoop] at h
  | cons chunk restChunks ih =>
    intro buffer events fb lo h
    rw [writerAckLoop] at h
    cases hscan : scanAckBuffer (buffer ++ chunk) with
    | ackFound buffer2 =>
      rw [hscan] at h
      simp at h
      obtain ⟨hev, hfb, hlo⟩ := h
      subst hev
      subst hfb
      subst hlo
      obtain ⟨pre, suf, hdec, hbuf, hpre⟩ := scanAckBuffer_ack_decomp _ _ hscan
      subst hbuf
      have htot : buffer ++ List.flatten [chunk] = pre ++ 0x2b :: suf := by
        simpa using hdec
      have hackone : ackConsumedCount [WriterEvent.ackConsumed] = 1 := rfl
      have hnackzero : nackConsumedCount [WriterEvent.ackConsumed] = 0 := rfl
      refine ⟨[chunk], by simp, ?_, ?_, ?_, ?_⟩
      · have hsub : List.Sublist (pre ++ suf) (pre ++ 0x2b :: suf) :=
          List.Sublist.append_left (List.sublist_cons_self 0x2b suf) pre
        simp only [List.flatten_cons, List.flatten_nil, List.append_nil, hdec]
        exact hsub
      · intro b hb1 hb2
        rw [htot]
        simp [List.count_append, List.count_cons, Ne.symm hb1]
      · rw [htot, hackone]
        simp [List.count_append, List.count_cons]
        omega
      · rw [htot, hnackzero]
        simp [List.count_append, List.count_cons]
    | nackFound buffer2 =>
      rw [hscan] at h
      have h2 : (match writerAckLoop restChunks buffer2 with
          | some (events, finalBuffer, leftover) =>
            some (WriterEvent.nackConsumed :: events, finalBuffer, leftover)
          | none => none) = some (events, fb, lo) := h
      cases hrec : writerAckLoop restChunks buffer2 with
      | none => rw [hrec] at h2; simp at h2
      | some trip =>
        obtain ⟨events2, fb2, lo2⟩ := trip
        rw [hrec] at h2
        simp at h2
        obtain ⟨hev, hfb, hlo⟩ := h2
        subst hev
        subst hfb
        subst hlo
        obtain ⟨consumed2, hchunks2, hsub2, hcount2, hackc, hnackc⟩ :=
          ih buffer2 events2 fb2 lo2 hrec
        obtain ⟨pre, suf, hdec, hbuf, hpre⟩ := scanAckBuffer_nack_decomp _ _ hscan
        subst hbuf
        have hackcons : ackConsumedCount (WriterEvent.nackConsumed :: events2) =
            ackConsumedCount events2 := by
          simp [ackConsumedCount, List.countP_cons]
        have hnackcons : nackConsumedCount (WriterEvent.nackConsumed :: events2) =
            nackConsumedCount events2 + 1 := by
          simp [nackConsumedCount, List.countP_cons]
        refine ⟨chunk :: consumed2, by simp [hchunks2], ?_, ?_, ?_, ?_⟩
        · have hstep : List.Sublist (pre ++ suf) (buffer ++ chunk) := by
            rw [hdec]
            exact List.Sublist.append_left (List.sublist_cons_self 0x2d suf) pre
          have hmid : List.Sublist ((pre ++ suf) ++ consumed2.flatten)
              ((buffer ++ chunk) ++ consumed2.flatten) :=
            List.Sublist.append_right hstep consumed2.flatten
          have hfinal := List.Sublist.trans hsub2 hmid
          simpa [List.append_assoc] using hfinal
        · intro b hb1 hb2
          have hc2 := hcount2 b hb1 hb2
          have hbufcount : (pre ++ suf).count b = (buffer ++ chunk).count b := by
            rw [hdec]
            simp [List.count_append, List.count_cons, Ne.symm hb2]
          rw [hc2]
          simp [List.count_append] at hbufcount ⊢
          omega
        · rw [hackcons]
          have ha := hackc
          simp [List.count_append] at ha
          simp only [List.flatten_cons, ← List.append_assoc]
          rw [hdec]
          simp [List.count_append, List.count_cons]
          omega
        · rw [hnackcons]
          have hn := hnackc
          simp [List.count_append] at hn
          simp only [List.flatten_cons, ← List.append_assoc]
          rw [hdec]
          simp [List.count_append, List.count_cons]
          omega
    | noMarker =>
      rw [hscan] at h
      obtain ⟨consumed2, hchunks2, hsub2, hcount2, hackc, hnackc⟩ :=
        ih (buffer ++ chunk) events fb lo h
      refine ⟨chunk :: consumed2, by simp [hchunks2], ?_, ?_, ?_, ?_⟩
      · simpa [List.append_assoc] using hsub2
      · intro b hb1 hb2
        have hc2 := hcount2 b hb1 hb2
        simpa [List.append_assoc] using hc2
      · simpa [List.append_assoc] using hackc
      · simpa [List.append_assoc] using hnackc

/-- C9: no byte is dropped at the ack/read boundary — whenever `writer`
completes the ack wait and hands the buffer to the inbound reader, the
buffer handed over is a sublist (order preserved) of the accumulated bytes
(initial buffer plus all chunks read); every byte that is not a `+`/`-`
keeps its exact multiplicity, and `+`/`-`-valued bytes are missing from
the handed-over buffer exactly as many times as the trace records a
consumed ack/nack marker — so an accumulated `+` or `-` that was not
consumed as an ack marker is preserved too. -/
theorem writer_preserves_nonmarker_bytes (packet : CheckedPacket)
    (chunks : List (List Nat)) (buffer : List Nat) (events : List WriterEvent)
    (finalBuffer : List Nat) (leftover : List (List Nat))
    (h : writer packet chunks buffer = some (events, finalBuffer, leftover)) :
    ∃ consumed, chunks = consumed ++ leftover ∧
      List.Sublist finalBuffer (buffer ++ consumed.flatten) ∧
      (∀ b, b ≠ 0x2b → b ≠ 0x2d →
        finalBuffer.count b = (buffer ++ consumed.flatten).count b) ∧
      (buffer ++ consumed.flatten).count 0x2b =
        finalBuffer.count 0x2b + ackConsumedCount events ∧
      (buffer ++ consumed.flatten).count 0x2d =
        finalBuffer.count 0x2d + nackConsumedCount events := by
  rw [writer] at h
  cases hloop : writerAckLoop chunks buffer with
  | none => rw [hloop] at h; simp at h
  | some trip =>
    obtain ⟨events2, fb2, lo2⟩ := trip
    rw [hloop] at h
    simp at h
    obtain ⟨hev, hfb, hlo⟩ := h
    subst hev
    subst hfb
    subst hlo
    obtain ⟨consumed, h1, h2, h3, h4, h5⟩ :=
      writerAckLoop_buffer_discipline chunks buffer events2 fb2 lo2 hloop
    have hackcons : ackConsumedCount (WriterEvent.frameSent (encode packet) :: events2) =
        ackConsumedCount events2 := by
      simp [ackConsumedCount, List.countP_cons]
    have hnackcons : nackConsumedCount (WriterEvent.frameSent (encode packet) :: events2) =
        nackConsumedCount events2 := by
      simp [nackConsumedCount, List.countP_cons]
    exact ⟨consumed, h1, h2, h3, by rw [hackcons]; exact h4, by rw [hnackcons]; exact h5⟩

/-- Witness for C9 at a chunk holding a stray `-` after the real ack: the
reader receives `[0x2d]` — the consumed `+` is the only byte missing, the
unconsumed `-` survives. -/
theorem writer_preserves_nonmarker_bytes_witness :
    ∃ consumed, [[0x2b, 0x2d]] = consumed ++ ([] : List (List Nat)) ∧
      List.Sublist [0x2d] (([] : List Nat) ++ consumed.flatten) ∧
      (∀ b, b ≠ 0x2b → b ≠ 0x2d →
        List.count b [0x2d] = List.count b (([] : List Nat) ++ consumed.flatten)) ∧
      List.count 0x2b (([] : List Nat) ++ consumed.flatten) =
        List.count 0x2b [0x2d] + ackConsumedCount
          [WriterEvent.frameSent
             (encode { kind := PacketKind.Packet, data := [0x4f], checksum := [0x30, 0x30] }),
           WriterEvent.ackConsumed] ∧
      List.count 0x2d (([] : List Nat) ++ consumed.flatten) =
        List.count 0x2d [0x2d] + nackConsumedCount
          [WriterEvent.frameSent
             (encode { kind := PacketKind.Packet, data := [0x4f], checksum := [0x30, 0x30] }),
           WriterEvent.ackConsumed] :=
  writer_preserves_nonmarker_bytes
    { kind := PacketKind.Packet, data := [0x4f], checksum := [0x30, 0x30] }
    [[0x2b, 0x2d]] []
    [WriterEvent.frameSent
       (encode { kind := PacketKind.Packet, data := [0x4f], checksum := [0x30, 0x30] }),
     WriterEvent.ackConsumed]
    [0x2d] [] rfl

/-- C1 (divergence exhibit): with the peer stream delivering `-` and then
`+`, the writer transmits the encoded frame exactly once — the nack only
removes the `-` byte from the buffer and the loop re-enters at
`stream.read` without re-encoding — and the connection is handed to the
inbound reader once the `+` is consumed. -/
theorem writer_nack_consumes_without_resend :
    writer { kind := PacketKind.Packet, data := [0x4f, 0x4b], checksum := [0x39, 0x61] }
        [[0x2d], [0x2b]] [] =
      some ([WriterEvent.frameSent
               (encode { kind := PacketKind.Packet, data := [0x4f, 0x4b], checksum := [0x39, 0x61] }),
             WriterEvent.nackConsumed, WriterEvent.ackConsumed], [], []) ∧
    sentFrameCount
      [WriterEvent.frameSent
         (encode { kind := PacketKind.Packet, data := [0x4f, 0x4b], checksum := [0x39, 0x61] }),
       WriterEvent.nackConsumed, WriterEvent.ackConsumed] = 1 :=
  ⟨rfl, rfl⟩

end GdbServer

namespace ProbeRs

/-! Supporting lemmas for the breakpoint algorithm. -/

theorem position_isSome_of_mem {α : Type} (p : α → Bool) {l : List α} {x : α}
    (hx : x ∈ l) (hpx : p x = true) : ∃ i, position p l = some i := by
  cases hpos : position p l with
  | some i => exact ⟨i, rfl⟩
  | none =>
    have hfalse := (position_eq_none_iff p l).mp hpos x hx
    rw [hpx] at hfalse
    exact absurd hfalse (by simp)

theorem findFreeLoop_all_some :
    ∀ (l : List (Option Nat)) (n : Nat), (∀ bp ∈ l, bp.isSome = true) →
      findFreeLoop l n = Except.error CoreError.noAvailableHwBreakpoints := by
  intro l
  induction l with
  | nil => intro n _; rfl
  | cons bp rest ih =>
    intro n h
    cases bp with
    | none =>
      have hmem := h none (by simp)
      simp at hmem
    | some a =>
      simp only [findFreeLoop]
      exact ih (n + 1) fun x hx => h x (List.mem_cons_of_mem _ hx)

theorem findFreeLoop_first_none :
    ∀ (l : List (Option Nat)) (i n : Nat),
      position (fun bp => bp.isNone) l = some i →
      findFreeLoop l n = Except.ok (n + i) := by
  intro l
  induction l with
  | nil => intro i n h; simp [position] at h
  | cons bp rest ih =>
    intro i n h
    cases bp with
    | none =>
      simp [position] at h
      subst h
      rfl
    | some a =>
      simp [position] at h
      obtain ⟨j, hj, rfl⟩ := h
      simp only [findFreeLoop]
      rw [ih j (n + 1) hj]
      congr 1
      omega

theorem set_hw_breakpoint_eq_of_position_some {s : HwState} {address i : Nat}
    (hpos : position (fun bp => bp == some address) s.slots = some i) :
    set_hw_breakpoint address s =
      ({ slots := s.slots.set i (some address), hwBreakpointsEnabled := true }, Except.ok ()) := by
  by_cases he : s.hwBreakpointsEnabled <;>
    simp [set_hw_breakpoint, he, get_hw_breakpoints, enable_breakpoints,
      innerSetHwBreakpoint, hpos]

theorem set_hw_breakpoint_eq_of_no_match_full {s : HwState} {address : Nat}
    (hpos : position (fun bp => bp == some address) s.slots = none)
    (hfull : ∀ bp ∈ s.slots, bp.isSome = true) :
    set_hw_breakpoint address s =
      ({ slots := s.slots, hwBreakpointsEnabled := true },
        Except.error CoreError.noAvailableHwBreakpoints) := by
  obtain ⟨slots, enabled⟩ := s
  have hpos2 : position (fun bp => bp == some address) slots = none := hpos
  have hfull2 : ∀ bp ∈ slots, bp.isSome = true := hfull
  cases enabled <;>
    simp [set_hw_breakpoint, get_hw_breakpoints, enable_breakpoints,
      find_free_breakpoint_comparator_index, hpos2, findFreeLoop_all_some slots 0 hfull2]

theorem set_hw_breakpoint_eq_of_no_match_free {s : HwState} {address i : Nat}
    (hpos : position (fun bp => bp == some address) s.slots = none)
    (hfree : position (fun bp => bp.isNone) s.slots = some i) :
    set_hw_breakpoint address s =
      ({ slots := s.slots.set i (some address), hwBreakpointsEnabled := true }, Except.ok ()) := by
  have hloop : findFreeLoop s.slots 0 = Except.ok i := by
    rw [findFreeLoop_first_none s.slots i 0 hfree, Nat.zero_add]
  by_cases he : s.hwBreakpointsEnabled <;>
    simp [set_hw_breakpoint, he, get_hw_breakpoints, enable_breakpoints,
      find_free_breakpoint_comparator_index, hpos, hloop, innerSetHwBreakpoint]

theorem clear_matcher_eq (address : Nat) :
    (fun bp : Option Nat => bp.isSome && bp.getD 0 == address) =
      fun bp : Option Nat => bp == some address := by
  funext bp
  cases bp <;> simp

theorem clear_hw_breakpoint_eq_of_position_some {s : HwState} {address i : Nat}
    (hpos : position (fun bp => bp == some address) s.slots = some i) :
    clear_hw_breakpoint address s =
      ({ slots := s.slots.set i none, hwBreakpointsEnabled := s.hwBreakpointsEnabled },
        Except.ok ()) := by
  simp [clear_hw_breakpoint, get_hw_breakpoints, clear_matcher_eq, hpos, innerClearHwBreakpoint]

theorem not_mem_position_beq_none {s : List (Option Nat)} {address : Nat}
    (h : some address ∉ s) :
    position (fun bp => bp == some address) s = none := by
  rw [position_eq_none_iff]
  intro bp hbp
  cases bp with
  | none => simp
  | some a =>
    by_cases haa : a = address
    · subst haa
      exact absurd hbp h
    · simp [haa]

theorem clear_hw_breakpoint_eq_of_not_mem {s : HwState} {address : Nat}
    (h : some address ∉ s.slots) :
    clear_hw_breakpoint address s =
      (s, Except.error (CoreError.noBreakpointAtAddress address)) := by
  simp [clear_hw_breakpoint, get_hw_breakpoints, clear_matcher_eq,
    not_mem_position_beq_none h]

end ProbeRs

namespace ProbeRs

/-! The breakpoint claims. -/

/-- C4: if some comparator slot already holds `address`, `set_hw_breakpoint`
reuses that slot index (the position scan finds it) and re-asserts the
breakpoint there, leaving the slot vector unchanged — in particular the
number of occupied comparator slots is the same before and after. -/
theorem set_hw_breakpoint_idempotent (s : HwState) (address : Nat)
    (h : some address ∈ s.slots) :
    (∃ i, position (fun bp => bp == some address) s.slots = some i) ∧
    (set_hw_breakpoint address s).2 = Except.ok () ∧
    ((set_hw_breakpoint address s).1).slots = s.slots ∧
    occupiedSlotCount ((set_hw_breakpoint address s).1).slots = occupiedSlotCount s.slots := by
  obtain ⟨i, hpos⟩ := position_isSome_of_mem (fun bp => bp == some address) h (by simp)
  obtain ⟨pre, x, suf, hdecomp, hlen, hx, hpre⟩ := position_some_decomp _ _ _ hpos
  have hxval : x = some address := by simpa using hx
  subst hxval
  have hset : s.slots.set i (some address) = s.slots := by
    conv_lhs => rw [hdecomp, ← hlen]
    rw [set_at_decomp_length]
    exact hdecomp.symm
  rw [set_hw_breakpoint_eq_of_position_some hpos]
  exact ⟨⟨i, hpos⟩, rfl, hset, by simp [hset]⟩

/-- Witness for C4: re-setting the breakpoint already at address 5 keeps
the slot vector (and hence the occupied-slot count) unchanged. -/
theorem set_hw_breakpoint_idempotent_witness :
    (∃ i, position (fun bp => bp == some (5 : Nat)) [some 5, none] = some i) ∧
    (set_hw_breakpoint 5 { slots := [some 5, none], hwBreakpointsEnabled := false }).2 =
      Except.ok () ∧
    ((set_hw_breakpoint 5 { slots := [some 5, none], hwBreakpointsEnabled := false }).1).slots =
      [some 5, none] ∧
    occupiedSlotCount
        ((set_hw_breakpoint 5 { slots := [some 5, none], hwBreakpointsEnabled := false }).1).slots =
      occupiedSlotCount [some 5, none] :=
  set_hw_breakpoint_idempotent { slots := [some 5, none], hwBreakpointsEnabled := false } 5
    (by decide)

/-- C5: when `address` matches no occupied slot, `set_hw_breakpoint` fails
with the "No available hardware breakpoints" exhaustion error and writes no
comparator slot if every slot is occupied; and if at least one slot is
free, the first `none` entry in index order is the one written. -/
theorem set_hw_breakpoint_exhaustion_or_first_free (s : HwState) (address : Nat)
    (hnomatch : some address ∉ s.slots) :
    ((∀ bp ∈ s.slots, bp.isSome = true) →
      set_hw_breakpoint address s =
        ({ slots := s.slots, hwBreakpointsEnabled := true },
          Except.error CoreError.noAvailableHwBreakpoints)) ∧
    (none ∈ s.slots →
      ∃ i, position (fun bp => bp.isNone) s.slots = some i ∧
        set_hw_breakpoint address s =
          ({ slots := s.slots.set i (some address), hwBreakpointsEnabled := true },
            Except.ok ())) := by
  constructor
  · intro hfull
    exact set_hw_breakpoint_eq_of_no_match_full (not_mem_position_beq_none hnomatch) hfull
  · intro hfree
    obtain ⟨i, hpos⟩ := position_isSome_of_mem (fun bp : Option Nat => bp.isNone) hfree (by simp)
    exact ⟨i, hpos,
      set_hw_breakpoint_eq_of_no_match_free (not_mem_position_beq_none hnomatch) hpos⟩

/-- Witness for C5: a full two-slot core rejects a new address and keeps
its slots; with slot 1 as the first free slot, that slot receives the new
address. -/
theorem set_hw_breakpoint_exhaustion_or_first_free_witness :
    set_hw_breakpoint 9 { slots := [some 1, some 2], hwBreakpointsEnabled := true } =
      ({ slots := [some 1, some 2], hwBreakpointsEnabled := true },
        Except.error CoreError.noAvailableHwBreakpoints) ∧
    (∃ i, position (fun bp => bp.isNone) [some 1, none, none] = some i ∧
      set_hw_breakpoint 9 { slots := [some 1, none, none], hwBreakpointsEnabled := true } =
        ({ slots := [some 1, none, none].set i (some 9), hwBreakpointsEnabled := true },
          Except.ok ())) :=
  ⟨(set_hw_breakpoint_exhaustion_or_first_free
      { slots := [some 1, some 2], hwBreakpointsEnabled := true } 9 (by decide)).1 (by decide),
   (set_hw_breakpoint_exhaustion_or_first_free
      { slots := [some 1, none, none], hwBreakpointsEnabled := true } 9 (by decide)).2 (by decide)⟩

/-- C6: clearing an address held by no slot fails with the "No breakpoint
found at address" error and leaves the state — in particular every
comparator slot — unchanged; clearing an address held by some slot clears
the first matching slot in index order. -/
theorem clear_hw_breakpoint_spec (s : HwState) (address : Nat) :
    (some address ∉ s.slots →
      clear_hw_breakpoint address s =
        (s, Except.error (CoreError.noBreakpointAtAddress address))) ∧
    (some address ∈ s.slots →
      ∃ i, position (fun bp => bp == some address) s.slots = some i ∧
        clear_hw_breakpoint address s =
          ({ slots := s.slots.set i none, hwBreakpointsEnabled := s.hwBreakpointsEnabled },
            Except.ok ())) := by
  constructor
  · intro hnm
    exact clear_hw_breakpoint_eq_of_not_mem hnm
  · intro hmem
    obtain ⟨i, hpos⟩ := position_isSome_of_mem (fun bp => bp == some address) hmem (by simp)
    exact ⟨i, hpos, clear_hw_breakpoint_eq_of_position_some hpos⟩

/-- Witness for C6: clearing address 7 on a core holding only address 5
fails and keeps the state; clearing address 5 with two matching slots
clears slot 0, the first match. -/
theorem clear_hw_breakpoint_spec_witness :
    clear_hw_breakpoint 7 { slots := [some 5], hwBreakpointsEnabled := false } =
      ({ slots := [some 5], hwBreakpointsEnabled := false },
        Except.error (CoreError.noBreakpointAtAddress 7)) ∧
    (∃ i, position (fun bp => bp == some (5 : Nat)) [some 5, some 5] = some i ∧
      clear_hw_breakpoint 5 { slots := [some 5, some 5], hwBreakpointsEnabled := false } =
        ({ slots := [some 5, some 5].set i none, hwBreakpointsEnabled := false },
          Except.ok ())) :=
  ⟨(clear_hw_breakpoint_spec { slots := [some 5], hwBreakpointsEnabled := false } 7).1 (by decide),
   (clear_hw_breakpoint_spec { slots := [some 5, some 5], hwBreakpointsEnabled := false } 5).2
     (by decide)⟩

end ProbeRs

namespace ProbeRs

/-! Counting lemmas and the clear-all claim. -/

theorem beq_none_some (a : Nat) : ((none : Option Nat) == some a) = false := rfl

theorem beq_some_some (b a : Nat) : ((some b : Option Nat) == some a) = (b == a) := rfl

theorem count_filterMap_id :
    ∀ (l : List (Option Nat)) (a : Nat), (l.filterMap id).count a = l.count (some a) := by
  intro l a
  induction l with
  | nil => rfl
  | cons bp rest ih =>
    cases bp with
    | none => simpa [List.count_cons, List.filterMap_cons, beq_none_some] using ih
    | some b =>
      by_cases hba : b = a
      · subst hba
        simp [List.count_cons, List.filterMap_cons, beq_some_some, ih]
      · simp [List.count_cons, List.filterMap_cons, beq_some_some, hba, ih]

theorem clearAllLoop_clears :
    ∀ (addrs : List Nat) (s : HwState),
      (∀ a, addrs.count a = s.slots.count (some a)) →
      (clearAllLoop addrs s).2 = Except.ok () ∧
      (∀ bp ∈ ((clearAllLoop addrs s).1).slots, bp = none) ∧
      ((clearAllLoop addrs s).1).slots.length = s.slots.length ∧
      ((clearAllLoop addrs s).1).hwBreakpointsEnabled = s.hwBreakpointsEnabled := by
  intro addrs
  induction addrs with
  | nil =>
    intro s hcount
    refine ⟨rfl, ?_, rfl, rfl⟩
    intro bp hbp
    cases bp with
    | none => rfl
    | some a =>
      exfalso
      have hgt : 0 < s.slots.count (some a) := List.count_pos_iff.mpr hbp
      have h0 := hcount a
      simp at h0
      omega
  | cons a rest ih =>
    intro s hcount
    have hca := hcount a
    have hmem : some a ∈ s.slots := by
      apply List.count_pos_iff.mp
      simp [List.count_cons] at hca
      omega
    obtain ⟨i, hpos⟩ := position_isSome_of_mem (fun bp => bp == some a) hmem (by simp)
    obtain ⟨pre, x, suf, hdecomp, hlen, hx, hpre⟩ := position_some_decomp _ _ _ hpos
    have hxval : x = some a := by simpa using hx
    subst hxval
    have hset : s.slots.set i none = pre ++ none :: suf := by
      conv_lhs => rw [hdecomp, ← hlen]
      exact set_at_decomp_length pre (some a) none suf
    have hclear := clear_hw_breakpoint_eq_of_position_some hpos
    have hloopstep : clearAllLoop (a :: rest) s =
        clearAllLoop rest
          { slots := pre ++ none :: suf, hwBreakpointsEnabled := s.hwBreakpointsEnabled } := by
      rw [clearAllLoop, hclear, hset]
    have hcount2 : ∀ b,
        rest.count b =
          ({ slots := pre ++ none :: suf,
             hwBreakpointsEnabled := s.hwBreakpointsEnabled } : HwState).slots.count (some b) := by
      intro b
      have hcb := hcount b
      rw [hdecomp] at hcb
      by_cases hba : b = a
      · subst hba
        simp [List.count_cons, List.count_append, beq_some_some, beq_none_some] at hcb ⊢
        omega
      · simp [List.count_cons, List.count_append, beq_some_some, beq_none_some,
          Ne.symm hba] at hcb ⊢
        omega
    have hres := ih
      { slots := pre ++ none :: suf, hwBreakpointsEnabled := s.hwBreakpointsEnabled } hcount2
    rw [hloopstep]
    refine ⟨hres.1, hres.2.1, ?_, hres.2.2.2⟩
    rw [hres.2.2.1, hdecomp]
    simp

/-- C7: `clear_all_hw_breakpoints` succeeds on every core state, clears
every occupied comparator slot (skipping `none` entries, independent of the
enable flag, which the clear path never consults) so that afterwards every
slot reports `none` (the slot vector keeping its length), and on a core
with zero occupied slots it is a no-op. -/
theorem clear_all_hw_breakpoints_spec (s : HwState) :
    (clear_all_hw_breakpoints s).2 = Except.ok () ∧
    (∀ bp ∈ ((clear_all_hw_breakpoints s).1).slots, bp = none) ∧
    ((clear_all_hw_breakpoints s).1).slots.length = s.slots.length ∧
    ((∀ bp ∈ s.slots, bp = none) → clear_all_hw_breakpoints s = (s, Except.ok ())) := by
  have hrun := clearAllLoop_clears (s.slots.filterMap id) s fun a => count_filterMap_id s.slots a
  refine ⟨hrun.1, hrun.2.1, hrun.2.2.1, ?_⟩
  intro hall
  have hnil : s.slots.filterMap id = [] := by
    rw [List.filterMap_eq_nil_iff]
    intro bp hbp
    rw [hall bp hbp]
    rfl
  calc clear_all_hw_breakpoints s = clearAllLoop (s.slots.filterMap id) s := rfl
    _ = clearAllLoop [] s := by rw [hnil]
    _ = (s, Except.ok ()) := rfl

/-- Witness for C7: the core with slots 0 and 2 occupied ends with all
three slots reporting `none`, and the empty core is a no-op. -/
theorem clear_all_hw_breakpoints_spec_witness :
    (clear_all_hw_breakpoints { slots := [some 1, none, some 2], hwBreakpointsEnabled := false }).2 =
      Except.ok () ∧
    ((clear_all_hw_breakpoints
        { slots := [some 1, none, some 2], hwBreakpointsEnabled := false }).1).slots.length = 3 ∧
    clear_all_hw_breakpoints { slots := [none, none], hwBreakpointsEnabled := true } =
      ({ slots := [none, none], hwBreakpointsEnabled := true }, Except.ok ()) :=
  ⟨(clear_all_hw_breakpoints_spec
      { slots := [some 1, none, some 2], hwBreakpointsEnabled := false }).1,
   by
     rw [(clear_all_hw_breakpoints_spec
       { slots := [some 1, none, some 2], hwBreakpointsEnabled := false }).2.2.1]
     rfl,
   (clear_all_hw_breakpoints_spec
      { slots := [none, none], hwBreakpointsEnabled := true }).2.2.2 (by decide)⟩

/-- C2 (divergence exhibit): at the declared core type `Armv7em` the
construction/readback round trip yields `Armv7m`, because
`from_core_type` builds the `Armv7m` variant for `Armv7em` input — the
distinct `Armv7em` tag (which `core_type` would map back) is never
constructed. -/
theorem core_type_from_core_type_armv7em :
    core_type (from_core_type CoreType.Armv7em) = CoreType.Armv7m ∧
    CoreType.Armv7m ≠ CoreType.Armv7em :=
  ⟨rfl, by decide⟩

/-- C10: for every register file and index, the checked accessors return
`some` of the indexed description exactly when the index is in range of the
corresponding sequence (agreeing there with the unchecked direct-indexing
accessors) and `none` otherwise — they fail in no other way. -/
theorem get_register_accessors_safe (rf : RegisterFile) (index : Nat) :
    (∀ h : index < rf.platform_registers.length,
      rf.get_platform_register index = some (rf.platform_register index h)) ∧
    (rf.platform_registers.length ≤ index → rf.get_platform_register index = none) ∧
    (∀ h : index < rf.argument_registers.length,
      rf.get_argument_register index = some (rf.argument_register index h)) ∧
    (rf.argument_registers.length ≤ index → rf.get_argument_register index = none) ∧
    (∀ h : index < rf.result_registers.length,
      rf.get_result_register index = some (rf.result_register index h)) ∧
    (rf.result_registers.length ≤ index → rf.get_result_register index = none) := by
  refine ⟨fun h => ?_, fun h => ?_, fun h => ?_, fun h => ?_, fun h => ?_, fun h => ?_⟩ <;>
    first
      | exact List.get?_eq_get h
      | exact List.get?_eq_none.mpr h

/-- Witness for C10 on the sample register file: index 0 is in range of
the platform registers and out of range of the (empty) argument
registers. -/
theorem get_register_accessors_safe_witness :
    sampleRegisterFile.get_platform_register 0 = some sampleRegisterDescription ∧
    sampleRegisterFile.get_argument_register 0 = none :=
  ⟨(get_register_accessors_safe sampleRegisterFile 0).1 (by decide),
   (get_register_accessors_safe sampleRegisterFile 0).2.2.2.1 (by decide)⟩

end ProbeRs
